import Mathlib

/-!
Verification of the seed-generation and host-precheck logic of
`edgi-govdata-archiving/web-monitoring-crawler`.

The development shallowly embeds the two source files
`src/edgi_wm_crawler/seeds.py` and `src/edgi_wm_crawler/__init__.py`:

* URL hostname extraction follows CPython's `urllib.parse` (`urlsplit` plus
  the `hostname` property), restricted to the pieces the program uses.
* `group_urls`, `interleave`, `check_connection_error`,
  `format_browsertrix` (its seed ordering), `filter_unreachable_hosts` and
  the packing logic of `generate_multi_seeds` are translated function by
  function.  Python generators become Lean lists; the `ThreadPoolExecutor`
  /`as_completed` loop of `filter_unreachable_hosts` is modelled by passing
  the probe-completion order as an explicit argument; network probes are
  modelled by a scripted outcome function.
* Python `dict`s (insertion ordered) become association lists.
-/

namespace Crawler

/-! ## Generic list helpers -/

/-- Substring test on character lists: Python's `needle in haystack`. -/
def listContains (hay pat : List Char) : Bool :=
  hay.tails.any (fun t => pat.isPrefixOf t)

/-- Substring test on strings: Python's `pat in s`. -/
def strContains (s pat : String) : Bool :=
  listContains s.toList pat.toList

theorem perm_append_swap {α : Type} (a b c : List α) :
    (a ++ (b ++ c)).Perm (b ++ (a ++ c)) := by
  have h1 : a ++ (b ++ c) = (a ++ b) ++ c := by rw [List.append_assoc]
  have h2 : ((a ++ b) ++ c).Perm ((b ++ a) ++ c) :=
    (List.perm_append_comm).append_right c
  have h3 : (b ++ a) ++ c = b ++ (a ++ c) := by rw [List.append_assoc]
  rw [h1, ← h3]; exact h2

/-! ## URL hostname extraction (CPython `urllib.parse`)

`urlparse(url).hostname` as the program uses it.  The model reproduces, on
`List Char`:
* the WHATWG strip of leading/trailing C0-control-or-space characters and
  the removal of tab/CR/LF (`urlsplit` preprocessing);
* the `scheme:` prefix strip (first `:`; the part before it must start with
  an ASCII letter and consist of alphanumerics and `+-.`);
* the netloc: only present after a leading `//`, running up to the first of
  `/?#`;
* the `hostname` property: text after the last `@`; brackets (`[...]`) take
  priority over the `:port` split; result lowercased (ASCII); empty
  hostname becomes `none`.
-/

/-- Characters CPython removes from URLs before splitting. -/
def unsafeURLChar (c : Char) : Bool :=
  c = '\t' || c = '\n' || c = '\r'

/-- WHATWG preprocessing done by `urllib.parse.urlsplit`. -/
def cleanURL (cs : List Char) : List Char :=
  let stripped :=
    ((cs.dropWhile (fun c => c ≤ ' ')).reverse.dropWhile (fun c => c ≤ ' ')).reverse
  stripped.filter (fun c => ¬ unsafeURLChar c)

/-- Characters allowed inside a URL scheme after the first letter. -/
def schemeChar (c : Char) : Bool :=
  c.isAlphanum || c = '+' || c = '-' || c = '.'

/-- Splits a character list at the first `:`; `none` when there is no `:`. -/
def breakAtColon : List Char → Option (List Char × List Char)
  | [] => none
  | c :: rest =>
    if c = ':' then some ([], rest)
    else (breakAtColon rest).map (fun p => (c :: p.1, p.2))

/-- Drops a leading `scheme:` when the prefix before the first `:` is a valid
scheme (`urlsplit`'s scheme detection). -/
def removeScheme (cs : List Char) : List Char :=
  match breakAtColon cs with
  | none => cs
  | some (before, after) =>
    match before with
    | [] => cs
    | c0 :: restb => if c0.isAlpha && restb.all schemeChar then after else cs

/-- The netloc of a URL whose scheme has been removed: present only after a
leading `//`, up to the first `/`, `?` or `#`. -/
def netlocOf : List Char → List Char
  | '/' :: '/' :: rest => rest.takeWhile (fun c => c ≠ '/' && c ≠ '?' && c ≠ '#')
  | _ => []

/-- Text after the last `@` of the netloc (`netloc.rpartition(chr(64))`). -/
def afterLastAt (cs : List Char) : List Char :=
  (cs.reverse.takeWhile (fun c => c ≠ '@')).reverse

/-- The hostname part of the host info: bracketed (`[...]`) hosts take
priority, otherwise everything before the first `:`. -/
def hostPart (hi : List Char) : List Char :=
  if hi.contains '[' then
    ((hi.dropWhile (fun c => c ≠ '[')).drop 1).takeWhile (fun c => c ≠ ']')
  else
    hi.takeWhile (fun c => c ≠ ':')

/-- `urlparse(url).hostname`: lowercased hostname, `none` when empty. -/
def hostname (url : String) : Option String :=
  let h := hostPart (afterLastAt (netlocOf (removeScheme (cleanURL url.toList))))
  if h.isEmpty then none else some (String.mk (h.map Char.toLower))

/-! ## Grouping (`group_urls` in `seeds.py`) -/

/-- Grouping mode: the `by` argument of `group_urls`. -/
inductive GroupBy where
  | host
  | domain
deriving DecidableEq

/-- Ordered association map from group key to the URLs of the group, the
model of the insertion-ordered `defaultdict(list)` in `group_urls`. -/
abbrev Groups := List (String × List String)

/-- Splits a hostname at `.` (Python `hostname.split(chr(46))`). -/
def splitLabels : List Char → List (List Char)
  | [] => [[]]
  | c :: rest =>
    match splitLabels rest with
    | [] => [[]]
    | l :: ls => if c = '.' then [] :: l :: ls else (c :: l) :: ls

/-- Joins labels with `.` (Python `(chr(46)).join(labels)`). -/
def joinDots : List (List Char) → List Char
  | [] => []
  | [l] => l
  | l :: ls => l ++ '.' :: joinDots ls

/-- The last two dot-separated labels of a hostname:
`(chr(46)).join(hostname.split(chr(46))[-2:])`. -/
def registrableDomain (host : String) : String :=
  let labels := splitLabels host.toList
  String.mk (joinDots (labels.drop (labels.length - 2)))

/-- The group key `group_urls` computes for a hostname: the hostname itself
in host mode; in domain mode the registrable domain, overridden to
`arcgis` when the hostname contains the substring `arcgis`. -/
def groupKey : GroupBy → String → String
  | .host, h => h
  | .domain, h =>
    let g := registrableDomain h
    if strContains h "arcgis" then "arcgis" else g

/-- Appends a URL to its group, creating the group at the end on first use
(`defaultdict(list)` + `append` with dict insertion order). -/
def insertGroup : Groups → String → String → Groups
  | [], k, u => [(k, [u])]
  | (k0, us) :: rest, k, u =>
    if k0 = k then (k0, us ++ [u]) :: rest
    else (k0, us) :: insertGroup rest k u

/-- Worker loop of `group_urls`: processes URLs in order, failing with the
`assert parsed.hostname` message when a URL has no parseable hostname. -/
def groupURLsAux (b : GroupBy) : List String → Groups → Except String Groups
  | [], acc => .ok acc
  | u :: rest, acc =>
    match hostname u with
    | none => .error ("No hostname: \x22" ++ u ++ "\x22")
    | some h => groupURLsAux b rest (insertGroup acc (groupKey b h) u)

/-- `group_urls(urls, by)` from `seeds.py`. -/
def group_urls (urls : List String) (b : GroupBy) : Except String Groups :=
  groupURLsAux b urls []

/-- First group stored under a key (Python `dict` lookup; `[]` if absent). -/
def lookupGroup : Groups → String → List String
  | [], _ => []
  | (k0, us) :: rest, k => if k0 = k then us else lookupGroup rest k

/-- Removes the entry of a key (Python `dict.pop(key, default)`). -/
def removeGroup : Groups → String → Groups
  | [], _ => []
  | (k0, us) :: rest, k =>
    if k0 = k then rest else (k0, us) :: removeGroup rest k

/-! ## Interleaving (`interleave` in `seeds.py`)

The Python generator keeps a list of iterators and repeatedly runs
`for iterator in iterators`, yielding `next(iterator)` and calling
`iterators.remove(iterator)` on `StopIteration`.  An iterator is modelled by
the list of its remaining elements.  Removing the current element of a
Python list while a `for` loop runs over it makes the loop skip the element
that slides into the removed position; `passAux` reproduces one full `for`
pass with exactly that behaviour: an exhausted iterator is dropped and the
iterator immediately after it is left untouched for this pass. -/

/-- One `for iterator in iterators` pass of `interleave`: yielded elements
and the new iterator list. -/
def passAux {α : Type} : List (List α) → List α × List (List α)
  | [] => ([], [])
  | [] :: s =>
    match s with
    | [] => ([], [])
    | y :: s' =>
      let p := passAux s'
      (p.1, y :: p.2)
  | (x :: xs) :: s =>
    let p := passAux s
    (x :: p.1, xs :: p.2)

/-- Termination measure of the `while iterators` loop: number of live
iterators plus the number of elements they still hold. -/
def mval {α : Type} (its : List (List α)) : Nat :=
  its.length + (its.map List.length).sum

theorem passAux_mval_le {α : Type} :
    ∀ (its : List (List α)), mval (passAux its).2 ≤ mval its
  | [] => by simp [passAux, mval]
  | [] :: [] => by simp [passAux, mval]
  | [] :: y :: s' => by
    have ih := passAux_mval_le s'
    simp only [passAux, mval, List.length_cons, List.map_cons, List.sum_cons,
      List.length_nil] at *
    omega
  | (x :: xs) :: s => by
    have ih := passAux_mval_le s
    simp only [passAux, mval, List.length_cons, List.map_cons, List.sum_cons] at *
    omega

theorem passAux_mval_lt {α : Type} :
    ∀ (its : List (List α)), its ≠ [] → mval (passAux its).2 < mval its
  | [], h => absurd rfl h
  | [] :: [], _ => by simp [passAux, mval]
  | [] :: y :: s', _ => by
    have ih := passAux_mval_le s'
    simp only [passAux, mval, List.length_cons, List.map_cons, List.sum_cons,
      List.length_nil] at *
    omega
  | (x :: xs) :: s, _ => by
    have ih := passAux_mval_le s
    simp only [passAux, mval, List.length_cons, List.map_cons, List.sum_cons] at *
    omega

theorem passAux_perm {α : Type} :
    ∀ (its : List (List α)), ((passAux its).1 ++ (passAux its).2.flatten).Perm its.flatten
  | [] => by simp [passAux]
  | [] :: [] => by simp [passAux]
  | [] :: y :: s' => by
    have ih := passAux_perm s'
    simp only [passAux, List.flatten_cons, List.flatten_nil, List.nil_append]
    exact (perm_append_swap _ _ _).trans (ih.append_left y)
  | (x :: xs) :: s => by
    have ih := passAux_perm s
    simp only [passAux, List.flatten_cons, List.cons_append]
    exact ((perm_append_swap _ _ _).trans (ih.append_left xs)).cons x

/-- The `while iterators` loop of `interleave`, driven by explicit fuel so
that the definition is structurally recursive and computable by the kernel.
`mval its` passes always suffice (each pass on a nonempty list strictly
decreases `mval`), so `interleave` below supplies that much fuel. -/
def interleaveAux {α : Type} : Nat → List (List α) → List α
  | 0, _ => []
  | _ + 1, [] => []
  | fuel + 1, its@(_ :: _) =>
    (passAux its).1 ++ interleaveAux fuel (passAux its).2

/-- `interleave(*iterables)` from `seeds.py`, with each iterable given as
the list of elements its iterator will yield. -/
def interleave {α : Type} (its : List (List α)) : List α :=
  interleaveAux (mval its) its

theorem interleaveAux_fuel {α : Type} :
    ∀ (f1 f2 : Nat) (its : List (List α)), mval its ≤ f1 → mval its ≤ f2 →
      interleaveAux f1 its = interleaveAux f2 its := by
  intro f1
  induction f1 with
  | zero =>
    intro f2 its h1 _
    have : its = [] := by
      cases its with
      | nil => rfl
      | cons hd tl => simp [mval] at h1
    subst this
    cases f2 <;> simp [interleaveAux]
  | succ f1 ih =>
    intro f2 its h1 h2
    cases its with
    | nil => cases f2 <;> simp [interleaveAux]
    | cons hd tl =>
      cases f2 with
      | zero => simp [mval] at h2
      | succ f2 =>
        simp only [interleaveAux]
        have hlt := passAux_mval_lt (hd :: tl) (by simp)
        have := ih f2 (passAux (hd :: tl)).2 (by omega) (by omega)
        rw [this]

/-- Everything `interleave` yields is a permutation of the concatenation of
its inputs: every element appears exactly once. -/
theorem interleave_perm {α : Type} (its : List (List α)) :
    (interleave its).Perm its.flatten := by
  suffices h : ∀ (fuel : Nat) (l : List (List α)), mval l ≤ fuel →
      (interleaveAux fuel l).Perm l.flatten by
    exact h (mval its) its le_rfl
  intro fuel
  induction fuel with
  | zero =>
    intro l hl
    have : l = [] := by
      cases l with
      | nil => rfl
      | cons hd tl => simp [mval] at hl
    subst this
    simp [interleaveAux]
  | succ fuel ih =>
    intro l hl
    cases l with
    | nil => simp [interleaveAux]
    | cons hd tl =>
      simp only [interleaveAux]
      have hlt := passAux_mval_lt (hd :: tl) (by simp)
      have hperm := ih (passAux (hd :: tl)).2 (by omega)
      exact ((hperm.append_left (passAux (hd :: tl)).1)).trans
        (passAux_perm (hd :: tl))

/-- Modelled from the spec: strict round-robin interleaving — one element
from each live sequence per round, exhausted sequences dropped at round
boundaries, no remaining sequence ever skipped.  Used only to compare the
source's `interleave` against the claimed ordering. -/
def roundRobinAux {α : Type} : Nat → List (List α) → List α
  | 0, _ => []
  | fuel + 1, its =>
    let live := its.filter (fun l => ¬ l.isEmpty)
    if live.isEmpty then []
    else live.filterMap List.head? ++ roundRobinAux fuel (live.map List.tail)

/-- Modelled from the spec: strict round-robin order over the inputs (fuel
`(its.map List.length).sum` always suffices). -/
def roundRobinSpec {α : Type} (its : List (List α)) : List α :=
  roundRobinAux (its.map List.length).sum its

/-! ## Lemmas about grouping -/

/-- The group key of a URL, when its hostname parses. -/
def urlKey (b : GroupBy) (u : String) : Option String :=
  (hostname u).map (groupKey b)

theorem insertGroup_flatten_perm (gs : Groups) (k u : String) :
    (((insertGroup gs k u).map Prod.snd).flatten).Perm
      ((gs.map Prod.snd).flatten ++ [u]) := by
  induction gs with
  | nil => simp [insertGroup]
  | cons p rest ih =>
    obtain ⟨k0, us⟩ := p
    by_cases hk : k0 = k
    · simp only [insertGroup, if_pos hk, List.map_cons, List.flatten_cons]
      rw [List.append_assoc, List.append_assoc]
      exact (List.perm_append_comm).append_left us
    · simp only [insertGroup, if_neg hk, List.map_cons, List.flatten_cons]
      have := ih.append_left us
      simpa [List.append_assoc] using this

theorem insertGroup_lookup (gs : Groups) (k u k' : String) :
    lookupGroup (insertGroup gs k u) k' =
      if k' = k then lookupGroup gs k' ++ [u] else lookupGroup gs k' := by
  induction gs with
  | nil =>
    by_cases h : k' = k
    · subst h; simp [insertGroup, lookupGroup]
    · have h2 : ¬ k = k' := fun hh => h hh.symm
      simp [insertGroup, lookupGroup, h, h2]
  | cons p rest ih =>
    obtain ⟨k0, us⟩ := p
    by_cases hk : k0 = k
    · subst hk
      by_cases hk' : k0 = k'
      · subst hk'
        simp [insertGroup, lookupGroup]
      · have h2 : ¬ k' = k0 := fun hh => hk' hh.symm
        simp [insertGroup, lookupGroup, hk', h2]
    · by_cases hk' : k0 = k'
      · subst hk'
        have h2 : ¬ k0 = k := hk
        have h3 : ¬ k0 = k := hk
        simp [insertGroup, lookupGroup, h2, h3]
      · simp [insertGroup, lookupGroup, hk, hk', ih]

theorem insertGroup_keys (gs : Groups) (k u : String) :
    (insertGroup gs k u).map Prod.fst =
      if k ∈ gs.map Prod.fst then gs.map Prod.fst
      else gs.map Prod.fst ++ [k] := by
  induction gs with
  | nil => simp [insertGroup]
  | cons p rest ih =>
    obtain ⟨k0, us⟩ := p
    by_cases hk : k0 = k
    · subst hk
      simp [insertGroup]
    · have hne : ¬ k = k0 := fun hh => hk hh.symm
      by_cases hmem : k ∈ rest.map Prod.fst
      · simp [insertGroup, hk, ih, hmem, hne]
      · simp [insertGroup, hk, ih, hmem, hne]

theorem insertGroup_keys_nodup (gs : Groups) (k u : String)
    (h : (gs.map Prod.fst).Nodup) :
    ((insertGroup gs k u).map Prod.fst).Nodup := by
  rw [insertGroup_keys]
  by_cases hmem : k ∈ gs.map Prod.fst
  · rwa [if_pos hmem]
  · rw [if_neg hmem]
    exact h.append (List.nodup_singleton k)
      ((List.disjoint_singleton).mpr hmem)

theorem insertGroup_entry_inv (P : String → String → Prop) (gs : Groups)
    (k u : String) (hgs : ∀ p ∈ gs, p.2 ≠ [] ∧ ∀ v ∈ p.2, P v p.1)
    (hu : P u k) :
    ∀ p ∈ insertGroup gs k u, p.2 ≠ [] ∧ ∀ v ∈ p.2, P v p.1 := by
  induction gs with
  | nil =>
    intro p hp
    simp only [insertGroup, List.mem_singleton] at hp
    subst hp
    exact ⟨by simp, by simpa using hu⟩
  | cons q rest ih =>
    obtain ⟨k0, us⟩ := q
    intro p hp
    by_cases hk : k0 = k
    · rw [insertGroup, if_pos hk] at hp
      rcases List.mem_cons.mp hp with hp1 | hp1
      · subst hp1
        have h0 := hgs (k0, us) (by simp)
        refine ⟨by simp, ?_⟩
        intro v hv
        rcases List.mem_append.mp hv with hv1 | hv1
        · exact h0.2 v hv1
        · simp only [List.mem_singleton] at hv1
          subst hv1
          exact hk ▸ hu
      · exact hgs p (List.mem_cons_of_mem _ hp1)
    · rw [insertGroup, if_neg hk] at hp
      rcases List.mem_cons.mp hp with hp1 | hp1
      · subst hp1
        exact hgs (k0, us) (by simp)
      · exact ih (fun q hq => hgs q (List.mem_cons_of_mem _ hq)) p hp1

theorem groupURLsAux_ok (b : GroupBy) (urls : List String)
    (h : ∀ u ∈ urls, (hostname u).isSome) :
    ∀ acc, ∃ gs, groupURLsAux b urls acc = .ok gs := by
  induction urls with
  | nil => intro acc; exact ⟨acc, rfl⟩
  | cons u rest ih =>
    intro acc
    have hu := h u (by simp)
    match he : hostname u with
    | none => rw [he] at hu; simp at hu
    | some hst =>
      simp only [groupURLsAux, he]
      exact ih (fun v hv => h v (List.mem_cons_of_mem _ hv)) _

theorem groupURLsAux_error (b : GroupBy) (urls : List String)
    (h : ∃ u ∈ urls, hostname u = none) :
    ∀ acc, ∃ e, groupURLsAux b urls acc = .error e := by
  induction urls with
  | nil => simp at h
  | cons u rest ih =>
    intro acc
    match he : hostname u with
    | none =>
      exact ⟨"No hostname: \x22" ++ u ++ "\x22", by simp [groupURLsAux, he]⟩
    | some hst =>
      obtain ⟨v, hv, hvnone⟩ := h
      rcases List.mem_cons.mp hv with hv1 | hv1
      · subst hv1; rw [he] at hvnone; cases hvnone
      · simp only [groupURLsAux, he]
        exact ih ⟨v, hv1, hvnone⟩ _

theorem groupURLsAux_flatten (b : GroupBy) (urls : List String) :
    ∀ acc gs, groupURLsAux b urls acc = .ok gs →
      ((gs.map Prod.snd).flatten).Perm ((acc.map Prod.snd).flatten ++ urls) := by
  induction urls with
  | nil =>
    intro acc gs h
    simp only [groupURLsAux] at h
    cases h
    simp
  | cons u rest ih =>
    intro acc gs h
    match he : hostname u with
    | none => simp [groupURLsAux, he] at h
    | some hst =>
      simp only [groupURLsAux, he] at h
      have h1 := ih _ _ h
      have h2 := (insertGroup_flatten_perm acc (groupKey b hst) u).append_right rest
      have h3 : ((acc.map Prod.snd).flatten ++ [u]) ++ rest =
          (acc.map Prod.snd).flatten ++ (u :: rest) := by simp
      rw [h3] at h2
      exact h1.trans h2

theorem groupURLsAux_lookup (b : GroupBy) (urls : List String) :
    ∀ acc gs, groupURLsAux b urls acc = .ok gs → ∀ k,
      lookupGroup gs k =
        lookupGroup acc k ++ urls.filter (fun u => urlKey b u = some k) := by
  induction urls with
  | nil =>
    intro acc gs h k
    simp only [groupURLsAux] at h
    cases h
    simp
  | cons u rest ih =>
    intro acc gs h k
    match he : hostname u with
    | none => simp [groupURLsAux, he] at h
    | some hst =>
      simp only [groupURLsAux, he] at h
      have h1 := ih _ _ h k
      rw [h1, insertGroup_lookup]
      by_cases hkey : k = groupKey b hst
      · rw [if_pos hkey]
        have : urlKey b u = some k := by simp [urlKey, he, hkey]
        simp [List.filter_cons, this, List.append_assoc]
      · rw [if_neg hkey]
        have : ¬ (urlKey b u = some k) := by
          simp only [urlKey, he, Option.map_some]
          intro hc
          exact hkey (Option.some.inj hc).symm
        simp [List.filter_cons, this]

theorem groupURLsAux_keys_nodup (b : GroupBy) (urls : List String) :
    ∀ acc gs, groupURLsAux b urls acc = .ok gs →
      (acc.map Prod.fst).Nodup → (gs.map Prod.fst).Nodup := by
  induction urls with
  | nil =>
    intro acc gs h hacc
    simp only [groupURLsAux] at h
    cases h
    exact hacc
  | cons u rest ih =>
    intro acc gs h hacc
    match he : hostname u with
    | none => simp [groupURLsAux, he] at h
    | some hst =>
      simp only [groupURLsAux, he] at h
      exact ih _ _ h (insertGroup_keys_nodup _ _ _ hacc)

theorem groupURLsAux_entries (b : GroupBy) (urls : List String) :
    ∀ acc gs, groupURLsAux b urls acc = .ok gs →
      (∀ p ∈ acc, p.2 ≠ [] ∧ ∀ v ∈ p.2, urlKey b v = some p.1) →
      ∀ p ∈ gs, p.2 ≠ [] ∧ ∀ v ∈ p.2, urlKey b v = some p.1 := by
  induction urls with
  | nil =>
    intro acc gs h hacc
    simp only [groupURLsAux] at h
    cases h
    exact hacc
  | cons u rest ih =>
    intro acc gs h hacc
    match he : hostname u with
    | none => simp [groupURLsAux, he] at h
    | some hst =>
      simp only [groupURLsAux, he] at h
      refine ih _ _ h ?_
      refine insertGroup_entry_inv (fun v k => urlKey b v = some k) acc
        (groupKey b hst) u hacc ?_
      simp [urlKey, he]

/-- A grouping succeeds exactly on inputs whose URLs all have hostnames. -/
theorem group_urls_ok (urls : List String) (b : GroupBy)
    (h : ∀ u ∈ urls, (hostname u).isSome) :
    ∃ gs, group_urls urls b = .ok gs :=
  groupURLsAux_ok b urls h []

theorem group_urls_flatten_perm (urls : List String) (b : GroupBy)
    (gs : Groups) (h : group_urls urls b = .ok gs) :
    ((gs.map Prod.snd).flatten).Perm urls := by
  have := groupURLsAux_flatten b urls [] gs h
  simpa using this

theorem group_urls_lookup (urls : List String) (b : GroupBy)
    (gs : Groups) (h : group_urls urls b = .ok gs) (k : String) :
    lookupGroup gs k = urls.filter (fun u => urlKey b u = some k) := by
  have := groupURLsAux_lookup b urls [] gs h k
  simpa [lookupGroup] using this

theorem group_urls_keys_nodup (urls : List String) (b : GroupBy)
    (gs : Groups) (h : group_urls urls b = .ok gs) :
    (gs.map Prod.fst).Nodup :=
  groupURLsAux_keys_nodup b urls [] gs h (by simp)

theorem group_urls_entries (urls : List String) (b : GroupBy)
    (gs : Groups) (h : group_urls urls b = .ok gs) :
    ∀ p ∈ gs, p.2 ≠ [] ∧ ∀ v ∈ p.2, urlKey b v = some p.1 :=
  groupURLsAux_entries b urls [] gs h (by simp)

theorem removeGroup_flatten_perm (gs : Groups) (k : String) :
    ((((removeGroup gs k).map Prod.snd).flatten) ++ lookupGroup gs k).Perm
      ((gs.map Prod.snd).flatten) := by
  induction gs with
  | nil => simp [removeGroup, lookupGroup]
  | cons p rest ih =>
    obtain ⟨k0, us⟩ := p
    by_cases hk : k0 = k
    · simp only [removeGroup, if_pos hk, lookupGroup, List.map_cons,
        List.flatten_cons]
      exact List.perm_append_comm
    · simp only [removeGroup, if_neg hk, lookupGroup, List.map_cons,
        List.flatten_cons]
      rw [List.append_assoc]
      exact ih.append_left us

theorem removeGroup_mem (gs : Groups) (k : String)
    (hnd : (gs.map Prod.fst).Nodup) :
    ∀ p ∈ removeGroup gs k, p ∈ gs ∧ p.1 ≠ k := by
  induction gs with
  | nil => simp [removeGroup]
  | cons q rest ih =>
    obtain ⟨k0, us⟩ := q
    simp only [List.map_cons, List.nodup_cons] at hnd
    intro p hp
    by_cases hk : k0 = k
    · rw [removeGroup, if_pos hk] at hp
      refine ⟨List.mem_cons_of_mem _ hp, ?_⟩
      intro hpk
      apply hnd.1
      rw [hk, ← hpk]
      exact List.mem_map_of_mem Prod.fst hp
    · rw [removeGroup, if_neg hk] at hp
      rcases List.mem_cons.mp hp with hp1 | hp1
      · subst hp1
        exact ⟨by simp, hk⟩
      · obtain ⟨h1, h2⟩ := ih hnd.2 p hp1
        exact ⟨List.mem_cons_of_mem _ h1, h2⟩

theorem lookupGroup_of_mem (gs : Groups) (hnd : (gs.map Prod.fst).Nodup) :
    ∀ p ∈ gs, lookupGroup gs p.1 = p.2 := by
  induction gs with
  | nil => simp
  | cons q rest ih =>
    obtain ⟨k0, us⟩ := q
    simp only [List.map_cons, List.nodup_cons] at hnd
    intro p hp
    rcases List.mem_cons.mp hp with hp1 | hp1
    · subst hp1
      simp [lookupGroup]
    · rw [lookupGroup, if_neg ?_]
      · exact ih hnd.2 p hp1
      · intro hk
        apply hnd.1
        rw [hk]
        exact List.mem_map_of_mem Prod.fst hp1

/-! ## Connection precheck (`check_connection_error` in `seeds.py`,
`filter_unreachable_hosts` in `__init__.py`)

A network probe of one URL is modelled by its scripted outcome: the request
either succeeds (any HTTP status — the source treats every response as
success), raises `requests.exceptions.ConnectionError` carrying a message
string, or raises some other exception.  `check_connection_error`
classifies the outcome exactly as the source's `try/except` does, by
substring tests on the `ConnectionError` message.

`filter_unreachable_hosts` submits one probe per host (the first URL of the
host's group) to a thread pool and consumes results with `as_completed`,
whose order is scheduler-dependent; the model takes that completion order
as an explicit list of hosts (a permutation of the submitted hosts).
Wall-clock timestamps are outside the model, so a log entry holds the
`error` and `urls` fields only. -/

/-- Outcome of `thread_requests.session.get(url, ...)` plus the read of
`response.content` for one probed URL. -/
inductive ProbeOutcome where
  | success
  | connectionError (message : String)
  | otherException
deriving DecidableEq

/-- `check_connection_error(url)` from `seeds.py`, as a function of the
probe's outcome for that URL. -/
def check_connection_error (outcome : ProbeOutcome) : Option String :=
  match outcome with
  | .success => none
  | .connectionError msg =>
    if strContains msg "NameResolutionError" then some "ERR_NAME_NOT_RESOLVED"
    else if strContains msg "ConnectTimeoutError" then some "timeout"
    else if strContains msg "RemoteDisconnected" then some "ERR_CONNECTION_RESET"
    else none
  | .otherException => none

/-- One record of `log_data` (timestamp omitted: wall-clock time is outside
the model). -/
structure LogEntry where
  error : Option String
  urls : List String
deriving DecidableEq

/-- Body of the `for future in as_completed(host_futures)` loop for one
completed host. -/
def precheckStep (gs : Groups) (probe : String → ProbeOutcome)
    (acc : List String × List (String × LogEntry)) (host : String) :
    List String × List (String × LogEntry) :=
  match lookupGroup gs host with
  | [] => acc
  | u :: us =>
    match check_connection_error (probe u) with
    | some e => (acc.1, acc.2 ++ [(host, ⟨some e, u :: us⟩)])
    | none => (acc.1 ++ (u :: us), acc.2 ++ [(host, ⟨none, []⟩)])

/-- The collection loop of `filter_unreachable_hosts`, processing hosts in
probe-completion order. -/
def precheckFold (gs : Groups) (probe : String → ProbeOutcome)
    (order : List String) : List String × List (String × LogEntry) :=
  order.foldl (precheckStep gs probe) ([], [])

/-- `filter_unreachable_hosts(urls)` from `__init__.py`: groups by host,
probes each host's first URL, and collects results in the given completion
order, returning the reachable URLs and the precheck log. -/
def filter_unreachable_hosts (urls : List String)
    (probe : String → ProbeOutcome) (order : List String) :
    Except String (List String × List (String × LogEntry)) := do
  let gs ← group_urls urls .host
  .ok (precheckFold gs probe order)

/-- The URLs a completed host contributes to the returned list. -/
def retOf (gs : Groups) (probe : String → ProbeOutcome) (host : String) :
    List String :=
  match lookupGroup gs host with
  | [] => []
  | u :: us =>
    if (check_connection_error (probe u)).isSome then [] else u :: us

/-- The log record a completed host contributes. -/
def entryOf (gs : Groups) (probe : String → ProbeOutcome) (host : String) :
    Option (String × LogEntry) :=
  match lookupGroup gs host with
  | [] => none
  | u :: us =>
    match check_connection_error (probe u) with
    | some e => some (host, ⟨some e, u :: us⟩)
    | none => some (host, ⟨none, []⟩)

theorem precheckFold_eq (gs : Groups) (probe : String → ProbeOutcome)
    (order : List String) :
    precheckFold gs probe order =
      ((order.map (retOf gs probe)).flatten,
        order.filterMap (entryOf gs probe)) := by
  suffices h : ∀ (o : List String) (acc : List String × List (String × LogEntry)),
      o.foldl (precheckStep gs probe) acc =
        (acc.1 ++ (o.map (retOf gs probe)).flatten,
          acc.2 ++ o.filterMap (entryOf gs probe)) by
    simpa [precheckFold] using h order ([], [])
  intro o
  induction o with
  | nil => intro acc; simp
  | cons h0 rest ih =>
    intro acc
    have hstep : precheckStep gs probe acc h0 =
        (acc.1 ++ retOf gs probe h0,
          acc.2 ++ (entryOf gs probe h0).toList) := by
      match hl : lookupGroup gs h0 with
      | [] => simp [precheckStep, retOf, entryOf, hl]
      | u :: us =>
        match hc : check_connection_error (probe u) with
        | some e => simp [precheckStep, retOf, entryOf, hl, hc]
        | none => simp [precheckStep, retOf, entryOf, hl, hc]
    rw [List.foldl_cons, ih, hstep]
    match he : entryOf gs probe h0 with
    | none => simp [List.filterMap_cons, he, List.append_assoc]
    | some p => simp [List.filterMap_cons, he, List.append_assoc]

/-- For a key present in a grouping with nonempty groups, lookup is
nonempty. -/
theorem lookupGroup_ne_nil (gs : Groups) (hne : ∀ p ∈ gs, p.2 ≠ [])
    (h : String) (hmem : h ∈ gs.map Prod.fst) : lookupGroup gs h ≠ [] := by
  induction gs with
  | nil => simp at hmem
  | cons q rest ih =>
    obtain ⟨k0, us⟩ := q
    by_cases hk : k0 = h
    · rw [lookupGroup, if_pos hk]
      exact hne (k0, us) (by simp)
    · rw [lookupGroup, if_neg hk]
      rw [List.map_cons] at hmem
      rcases List.mem_cons.mp hmem with h1 | h1
      · exact absurd h1.symm hk
      · exact ih (fun p hp => hne p (List.mem_cons_of_mem _ hp)) h1

/-- The URLs of all hosts classified reachable, in group order. -/
def reachableURLs (gs : Groups) (probe : String → ProbeOutcome) :
    List String :=
  ((gs.filter (fun g =>
    (check_connection_error (probe (g.2.headD ""))).isNone)).map
      Prod.snd).flatten

/-- The log record of one host group. -/
def logEntryFor (probe : String → ProbeOutcome) (g : String × List String) :
    String × LogEntry :=
  match check_connection_error (probe (g.2.headD "")) with
  | some e => (g.1, ⟨some e, g.2⟩)
  | none => (g.1, ⟨none, []⟩)

theorem retOf_entry (gs : Groups) (probe : String → ProbeOutcome)
    (hnd : (gs.map Prod.fst).Nodup) (hne : ∀ p ∈ gs, p.2 ≠ [])
    (g : String × List String) (hg : g ∈ gs) :
    retOf gs probe g.1 =
      if (check_connection_error (probe (g.2.headD ""))).isNone then g.2
      else [] := by
  have hl := lookupGroup_of_mem gs hnd g hg
  match h2 : g.2, hne g hg with
  | u :: us, _ =>
    rw [retOf, hl, h2]
    match hc : check_connection_error (probe ((u :: us).headD "")) with
    | some e =>
      simp only [List.headD_cons] at hc
      simp [hc]
    | none =>
      simp only [List.headD_cons] at hc
      simp [hc]

theorem entryOf_entry (gs : Groups) (probe : String → ProbeOutcome)
    (hnd : (gs.map Prod.fst).Nodup) (hne : ∀ p ∈ gs, p.2 ≠ [])
    (g : String × List String) (hg : g ∈ gs) :
    entryOf gs probe g.1 = some (logEntryFor probe g) := by
  have hl := lookupGroup_of_mem gs hnd g hg
  match h2 : g.2, hne g hg with
  | u :: us, _ =>
    rw [entryOf, hl, h2, logEntryFor, h2]
    match hc : check_connection_error (probe ((u :: us).headD "")) with
    | some e =>
      simp only [List.headD_cons] at hc
      simp [hc]
    | none =>
      simp only [List.headD_cons] at hc
      simp [hc]

theorem flatten_map_ite (gs : Groups) (p : String × List String → Bool) :
    ((gs.map (fun g => if p g then g.2 else ([] : List String))).flatten) =
      ((gs.filter p).map Prod.snd).flatten := by
  induction gs with
  | nil => simp
  | cons q rest ih =>
    by_cases hq : p q
    · simp [List.filter_cons, hq, ih]
    · simp [List.filter_cons, hq, ih]

/-- The returned reachable-URL list is a permutation of the URLs of the
hosts classified reachable, whatever the completion order. -/
theorem precheckFold_ret_perm (gs : Groups) (probe : String → ProbeOutcome)
    (order : List String) (hnd : (gs.map Prod.fst).Nodup)
    (hne : ∀ p ∈ gs, p.2 ≠ []) (hord : order.Perm (gs.map Prod.fst)) :
    ((precheckFold gs probe order).1).Perm (reachableURLs gs probe) := by
  rw [precheckFold_eq]
  have h1 : (order.map (retOf gs probe)).Perm
      ((gs.map Prod.fst).map (retOf gs probe)) := hord.map _
  have h2 : (gs.map Prod.fst).map (retOf gs probe) =
      gs.map (fun g =>
        if (check_connection_error (probe (g.2.headD ""))).isNone then g.2
        else ([] : List String)) := by
    rw [List.map_map]
    exact List.map_congr_left (fun g hg => retOf_entry gs probe hnd hne g hg)
  have h3 := h1.flatten
  rw [h2, flatten_map_ite gs
    (fun g => (check_connection_error (probe (g.2.headD ""))).isNone)] at h3
  exact h3

/-- The log has exactly one record per submitted host, whatever the
completion order. -/
theorem precheckFold_log_keys (gs : Groups) (probe : String → ProbeOutcome)
    (order : List String) (hne : ∀ p ∈ gs, p.2 ≠ [])
    (hord : order.Perm (gs.map Prod.fst)) :
    (((precheckFold gs probe order).2).map Prod.fst).Perm
      (gs.map Prod.fst) := by
  rw [precheckFold_eq]
  have hkeys : ((order.filterMap (entryOf gs probe)).map Prod.fst) = order := by
    have : ∀ (o : List String), (∀ h ∈ o, h ∈ gs.map Prod.fst) →
        ((o.filterMap (entryOf gs probe)).map Prod.fst) = o := by
      intro o
      induction o with
      | nil => intro _; simp
      | cons h0 rest ih =>
        intro hall
        have hmem := hall h0 (by simp)
        have hlk := lookupGroup_ne_nil gs hne h0 hmem
        match hl : lookupGroup gs h0 with
        | [] => exact absurd hl hlk
        | u :: us =>
          match hc : check_connection_error (probe u) with
          | some e =>
            simp only [List.filterMap_cons, entryOf, hl, hc]
            simpa using ih (fun h hh => hall h (List.mem_cons_of_mem _ hh))
          | none =>
            simp only [List.filterMap_cons, entryOf, hl, hc]
            simpa using ih (fun h hh => hall h (List.mem_cons_of_mem _ hh))
    exact this order (fun h hh => hord.mem_iff.mp hh)
  rw [hkeys]
  exact hord

/-- Every host group's record is in the log. -/
theorem precheckFold_log_mem (gs : Groups) (probe : String → ProbeOutcome)
    (order : List String) (hnd : (gs.map Prod.fst).Nodup)
    (hne : ∀ p ∈ gs, p.2 ≠ []) (hord : order.Perm (gs.map Prod.fst)) :
    ∀ g ∈ gs, logEntryFor probe g ∈ (precheckFold gs probe order).2 := by
  intro g hg
  rw [precheckFold_eq]
  refine List.mem_filterMap.mpr ⟨g.1, ?_, ?_⟩
  · exact hord.mem_iff.mpr (List.mem_map_of_mem Prod.fst hg)
  · exact entryOf_entry gs probe hnd hne g hg

/-- Every record in the log is some host group's record. -/
theorem precheckFold_log_shape (gs : Groups) (probe : String → ProbeOutcome)
    (order : List String) (hnd : (gs.map Prod.fst).Nodup)
    (hne : ∀ p ∈ gs, p.2 ≠ []) (hord : order.Perm (gs.map Prod.fst)) :
    ∀ e ∈ (precheckFold gs probe order).2, ∃ g ∈ gs, e = logEntryFor probe g := by
  intro e he
  rw [precheckFold_eq] at he
  obtain ⟨h0, hh0, hent⟩ := List.mem_filterMap.mp he
  have hmem : h0 ∈ gs.map Prod.fst := hord.mem_iff.mp hh0
  obtain ⟨g, hg, hfst⟩ := List.mem_map.mp hmem
  refine ⟨g, hg, ?_⟩
  rw [← hfst] at hent
  rw [entryOf_entry gs probe hnd hne g hg] at hent
  exact (Option.some.inj hent).symm

/-- Assoc-list lookup in the precheck log. -/
def lookupLog : List (String × LogEntry) → String → Option LogEntry
  | [], _ => none
  | (k0, e) :: rest, k => if k0 = k then some e else lookupLog rest k

/-- The log, read as a map from host to record, does not depend on the
completion order: lookup is membership in the order plus the host's own
record. -/
theorem precheckFold_lookupLog (gs : Groups) (probe : String → ProbeOutcome)
    (order : List String) (h : String) :
    lookupLog (precheckFold gs probe order).2 h =
      if h ∈ order then (entryOf gs probe h).map Prod.snd else none := by
  rw [precheckFold_eq]
  induction order with
  | nil => simp [lookupLog]
  | cons h0 rest ih =>
    match he : entryOf gs probe h0 with
    | none =>
      simp only [List.filterMap_cons, he]
      rw [ih]
      by_cases hh : h = h0
      · subst hh
        simp [he]
      · simp [List.mem_cons, hh]
    | some p =>
      have hp1 : p.1 = h0 := by
        match hl : lookupGroup gs h0 with
        | [] => simp [entryOf, hl] at he
        | u :: us =>
          simp only [entryOf, hl] at he
          match hc : check_connection_error (probe u) with
          | some e => simp only [hc] at he; cases he; rfl
          | none => simp only [hc] at he; cases he; rfl
      simp only [List.filterMap_cons, he]
      obtain ⟨p1, p2⟩ := p
      simp only at hp1
      subst hp1
      by_cases hh : p1 = h
      · subst hh
        simp [lookupLog, he]
      · simp only [lookupLog, if_neg hh]
        rw [ih]
        have : ¬ h = p1 := fun hc => hh hc.symm
        simp [List.mem_cons, this]

/-! ## Browsertrix seed ordering (`format_browsertrix` in `seeds.py`)

Only the seed list of the produced YAML document is modelled (the rest of
the document is static options).  `format_browsertrix` groups the URLs by
domain, pops the `arcgis` group to the front, interleaves the remaining
groups, and emits each URL either as a plain seed or, when it contains a
`#`, as a `page-spa` scope-zero entry. -/

/-- One entry of the `seeds` list in the Browsertrix config. -/
inductive Seed where
  | page (url : String)
  | pageSpa (url : String)
deriving DecidableEq

/-- Seed entry for one URL: a `page-spa`/depth-0 record when the URL
contains a fragment marker, a plain URL otherwise. -/
def seedOf (url : String) : Seed :=
  if strContains url "#" then .pageSpa url else .page url

/-- The ordered seed list `format_browsertrix` emits. -/
def format_browsertrix_seeds (urls : List String) :
    Except String (List Seed) := do
  let groups ← group_urls urls .domain
  let arcgis := lookupGroup groups "arcgis"
  let rest := removeGroup groups "arcgis"
  .ok ((arcgis ++ interleave (rest.map Prod.snd)).map seedOf)

/-! ## Seed packing (`generate_multi_seeds` in `__init__.py`)

The packing logic of `generate_multi_seeds`, stripped of its file I/O: the
inputs are the domain groups, `--size` (`target_size`), the raw
`--single-group-size` value (`0` meaning unset, defaulted via
`single_group_size or size`), and `--workers`; the output is the list of
batches (name, URLs, worker count) in emission order.  Sizes are `Int`
because the CLI accepts negative values.  `itertools.batched` raises
`ValueError` when its chunk size is less than one; that abort is the
`Except.error` case. -/

/-- One output seed list. -/
structure Batch where
  name : String
  urls : List String
  workers : Nat
deriving DecidableEq

/-- Chunking driven by fuel (the list length always suffices for a positive
chunk size, and `batched` below rejects other sizes). -/
def chunksOfAux {α : Type} : Nat → Nat → List α → List (List α)
  | 0, _, _ => []
  | _ + 1, _, [] => []
  | fuel + 1, n, l@(_ :: _) => l.take n :: chunksOfAux fuel n (l.drop n)

/-- Consecutive chunks of `n` elements (the last chunk may be shorter). -/
def chunksOf {α : Type} (n : Nat) (l : List α) : List (List α) :=
  chunksOfAux l.length n l

/-- `itertools.batched(l, n)`: `ValueError` when `n` is less than one. -/
def batched {α : Type} (l : List α) (n : Int) :
    Except String (List (List α)) :=
  if n < 1 then .error "n must be at least one"
  else .ok (chunksOf n.toNat l)

/-- Python `group.replace(chr(46), chr(45))`: filesystem-safe group name. -/
def dotToDash (s : String) : String :=
  String.mk (s.toList.map (fun c => if c = '.' then '-' else c))

/-- Batch name of the `index`-th chunk (1-based) of an oversized group. -/
def batchName (group : String) (index : Nat) : String :=
  dotToDash group ++ "-" ++ toString index

/-- Batches of one oversized group: one per chunk, 1-based indices, a
single worker. -/
def splitGroup (group : String) (chunks : List (List String)) : List Batch :=
  chunks.enum.map (fun p => ⟨batchName group (p.1 + 1), p.2, 1⟩)

/-- The oversized groups: URL count at least `size`, in group order. -/
def oversizedOf (groups : Groups) (size : Int) : Groups :=
  groups.filter (fun g => size ≤ (g.2.length : Int))

/-- The working set left for bin packing after oversized groups are
popped. -/
def remainderOf (groups : Groups) (size : Int) : Groups :=
  groups.filter (fun g => ¬ size ≤ (g.2.length : Int))

/-- The oversized-group phase: each oversized group is split into chunks of
`sgs` URLs; `batched` aborts the whole run when `sgs` is less than one and
an oversized group exists. -/
def packOversized (gs : Groups) (sgs : Int) : Except String (List Batch) :=
  match gs with
  | [] => .ok []
  | (k, us) :: rest => do
    let cs ← batched us sgs
    let bs ← packOversized rest sgs
    .ok (splitGroup k cs ++ bs)

/-- One pass of the bin-packing `for` loop: scan the remaining groups in
order, move each group that fits whole into the current subset, and stop
early when remaining capacity reaches exactly zero. -/
def onePass (gs : Groups) (remaining : Int) : List String × Groups :=
  match gs with
  | [] => ([], [])
  | (k, us) :: rest =>
    if (us.length : Int) ≤ remaining then
      if remaining - us.length = 0 then (us, rest)
      else
        let p := onePass rest (remaining - us.length)
        (us ++ p.1, p.2)
    else
      let p := onePass rest remaining
      (p.1, (k, us) :: p.2)

/-- The `while len(core_groups)` loop, driven by fuel.  When every
remaining group is smaller than `size` (always true for the working set the
program builds), each pass removes at least the first group, so
`gs.length` passes suffice; on other inputs the Python loop would not
terminate at all. -/
def packLoopAux (size : Int) : Nat → Groups → List (List String)
  | 0, _ => []
  | _ + 1, [] => []
  | fuel + 1, gs@(_ :: _) =>
    let p := onePass gs size
    p.1 :: packLoopAux size fuel p.2

/-- All bin-packing subsets, in creation order. -/
def packLoop (gs : Groups) (size : Int) : List (List String) :=
  packLoopAux size gs.length gs

/-- The `other-<index>` batches of the bin-packing phase. -/
def otherBatches (subsets : List (List String)) (workers : Nat) :
    List Batch :=
  subsets.enum.map (fun p => ⟨"other-" ++ toString (p.1 + 1), p.2, workers⟩)

/-- The packing logic of `generate_multi_seeds`: default the split size
(`single_group_size or size`), split oversized groups, then bin-pack the
rest. -/
def pack (groups : Groups) (size : Int) (single_group_size : Int)
    (workers : Nat) : Except String (List Batch) := do
  let sgs := if single_group_size = 0 then size else single_group_size
  let p1 ← packOversized (oversizedOf groups size) sgs
  .ok (p1 ++ otherBatches (packLoop (remainderOf groups size) size) workers)

/-! ## Lemmas about packing -/

theorem chunksOfAux_flatten {α : Type} :
    ∀ (fuel n : Nat) (l : List α), 1 ≤ n → l.length ≤ fuel →
      (chunksOfAux fuel n l).flatten = l := by
  intro fuel
  induction fuel with
  | zero =>
    intro n l hn hl
    have : l = [] := List.length_eq_zero.mp (Nat.le_zero.mp hl)
    subst this
    simp [chunksOfAux]
  | succ fuel ih =>
    intro n l hn hl
    match l with
    | [] => simp [chunksOfAux]
    | x :: xs =>
      have hdrop : (List.drop n (x :: xs)).length ≤ fuel := by
        rw [List.length_drop]
        simp only [List.length_cons] at hl ⊢
        omega
      simp only [chunksOfAux, List.flatten_cons, ih n _ hn hdrop,
        List.take_append_drop]

theorem chunksOfAux_length_le {α : Type} :
    ∀ (fuel n : Nat) (l : List α), ∀ c ∈ chunksOfAux fuel n l,
      c.length ≤ n := by
  intro fuel
  induction fuel with
  | zero => intro n l c hc; simp [chunksOfAux] at hc
  | succ fuel ih =>
    intro n l c hc
    match l with
    | [] => simp [chunksOfAux] at hc
    | x :: xs =>
      simp only [chunksOfAux, List.mem_cons] at hc
      rcases hc with hc | hc
      · subst hc
        simp
      · exact ih n _ c hc

theorem chunksOfAux_ne_nil {α : Type} :
    ∀ (fuel n : Nat) (l : List α), 1 ≤ n → ∀ c ∈ chunksOfAux fuel n l,
      c ≠ [] := by
  intro fuel
  induction fuel with
  | zero => intro n l _ c hc; simp [chunksOfAux] at hc
  | succ fuel ih =>
    intro n l hn c hc
    match l with
    | [] => simp [chunksOfAux] at hc
    | x :: xs =>
      simp only [chunksOfAux, List.mem_cons] at hc
      rcases hc with hc | hc
      · subst hc
        match n, hn with
        | m + 1, _ => simp [List.take_succ_cons]
      · exact ih n _ hn c hc

theorem chunksOfAux_dropLast {α : Type} :
    ∀ (fuel n : Nat) (l : List α), 1 ≤ n → l.length ≤ fuel →
      ∀ c ∈ (chunksOfAux fuel n l).dropLast, c.length = n := by
  intro fuel
  induction fuel with
  | zero => intro n l _ _ c hc; simp [chunksOfAux] at hc
  | succ fuel ih =>
    intro n l hn hl c hc
    match l with
    | [] => simp [chunksOfAux] at hc
    | x :: xs =>
      simp only [chunksOfAux] at hc
      match hrest : chunksOfAux fuel n (List.drop n (x :: xs)) with
      | [] =>
        rw [hrest] at hc
        simp [List.dropLast] at hc
      | r :: rs =>
        rw [hrest, List.dropLast_cons_of_ne_nil (by simp)] at hc
        have hdrop : (List.drop n (x :: xs)).length ≤ fuel := by
          rw [List.length_drop]
          simp only [List.length_cons] at hl ⊢
          omega
        rcases List.mem_cons.mp hc with hc1 | hc1
        · subst hc1
          have hne : List.drop n (x :: xs) ≠ [] := by
            intro h
            rw [h] at hrest
            cases fuel <;> simp [chunksOfAux] at hrest
          have : n < (x :: xs).length := by
            by_contra hcon
            exact hne (List.drop_eq_nil_of_le (Nat.le_of_not_lt hcon))
          exact List.length_take_of_le (Nat.le_of_lt this)
        · rw [← hrest] at hc1
          exact ih n _ hn hdrop c hc1

theorem chunksOf_flatten {α : Type} (n : Nat) (l : List α) (hn : 1 ≤ n) :
    (chunksOf n l).flatten = l :=
  chunksOfAux_flatten l.length n l hn le_rfl

theorem chunksOf_length_le {α : Type} (n : Nat) (l : List α) :
    ∀ c ∈ chunksOf n l, c.length ≤ n :=
  chunksOfAux_length_le l.length n l

theorem chunksOf_ne_nil {α : Type} (n : Nat) (l : List α) (hn : 1 ≤ n) :
    ∀ c ∈ chunksOf n l, c ≠ [] :=
  chunksOfAux_ne_nil l.length n l hn

theorem chunksOf_dropLast {α : Type} (n : Nat) (l : List α) (hn : 1 ≤ n) :
    ∀ c ∈ (chunksOf n l).dropLast, c.length = n :=
  chunksOfAux_dropLast l.length n l hn le_rfl

theorem splitGroup_urls (k : String) (cs : List (List String)) :
    (splitGroup k cs).map Batch.urls = cs := by
  simp only [splitGroup, List.map_map]
  have : (Batch.urls ∘ fun p : Nat × List String =>
      Batch.mk (batchName k (p.1 + 1)) p.2 1) = Prod.snd := rfl
  rw [this, List.enum_map_snd]

theorem packOversized_ok (sgs : Int) (hsgs : 1 ≤ sgs) :
    ∀ gs : Groups, packOversized gs sgs =
      .ok ((gs.map (fun g => splitGroup g.1 (chunksOf sgs.toNat g.2))).flatten) := by
  intro gs
  induction gs with
  | nil => simp [packOversized]
  | cons g rest ih =>
    obtain ⟨k, us⟩ := g
    have hb : batched us sgs = .ok (chunksOf sgs.toNat us) := by
      rw [batched, if_neg (by omega)]
    rw [packOversized, hb, ih]
    rfl

theorem packOversized_error (sgs : Int) (hsgs : sgs < 1) (gs : Groups)
    (hne : gs ≠ []) :
    packOversized gs sgs = .error "n must be at least one" := by
  match gs with
  | [] => exact absurd rfl hne
  | (k, us) :: rest =>
    have hb : batched us sgs = .error "n must be at least one" := by
      rw [batched, if_pos hsgs]
    rw [packOversized, hb]
    rfl

theorem onePass_perm (gs : Groups) (r : Int) :
    ((onePass gs r).1 ++ (((onePass gs r).2.map Prod.snd).flatten)).Perm
      ((gs.map Prod.snd).flatten) := by
  induction gs generalizing r with
  | nil => simp [onePass]
  | cons g rest ih =>
    obtain ⟨k, us⟩ := g
    by_cases hfit : (us.length : Int) ≤ r
    · by_cases hzero : r - us.length = 0
      · simp only [onePass, if_pos hfit, if_pos hzero, List.map_cons,
          List.flatten_cons]
        exact List.Perm.refl _
      · simp only [onePass, if_pos hfit, if_neg hzero, List.map_cons,
          List.flatten_cons]
        rw [List.append_assoc]
        exact (ih (r - us.length)).append_left us
    · simp only [onePass, if_neg hfit, List.map_cons, List.flatten_cons]
      have h1 := (ih r).append_left us
      refine (perm_append_swap _ _ _).trans h1

theorem onePass_subset_len (gs : Groups) (r : Int) (hr : 0 ≤ r) :
    ((onePass gs r).1.length : Int) ≤ r := by
  induction gs generalizing r with
  | nil => simpa [onePass] using hr
  | cons g rest ih =>
    obtain ⟨k, us⟩ := g
    by_cases hfit : (us.length : Int) ≤ r
    · by_cases hzero : r - us.length = 0
      · simp only [onePass, if_pos hfit, if_pos hzero]
        omega
      · simp only [onePass, if_pos hfit, if_neg hzero, List.length_append]
        have := ih (r - us.length) (by omega)
        push_cast
        push_cast at this
        omega
    · simp only [onePass, if_neg hfit]
      exact ih r hr

theorem onePass_mem (gs : Groups) (r : Int) :
    ∀ g ∈ (onePass gs r).2, g ∈ gs := by
  induction gs generalizing r with
  | nil => simp [onePass]
  | cons g rest ih =>
    obtain ⟨k, us⟩ := g
    intro p hp
    by_cases hfit : (us.length : Int) ≤ r
    · by_cases hzero : r - us.length = 0
      · rw [onePass, if_pos hfit, if_pos hzero] at hp
        exact List.mem_cons_of_mem _ hp
      · rw [onePass, if_pos hfit, if_neg hzero] at hp
        exact List.mem_cons_of_mem _ (ih _ p hp)
    · rw [onePass, if_neg hfit] at hp
      rcases List.mem_cons.mp hp with hp1 | hp1
      · subst hp1; simp
      · exact List.mem_cons_of_mem _ (ih _ p hp1)

theorem onePass_len_le (gs : Groups) (r : Int) :
    (onePass gs r).2.length ≤ gs.length := by
  induction gs generalizing r with
  | nil => simp [onePass]
  | cons g rest ih =>
    obtain ⟨k, us⟩ := g
    by_cases hfit : (us.length : Int) ≤ r
    · by_cases hzero : r - us.length = 0
      · simp only [onePass, if_pos hfit, if_pos hzero, List.length_cons]
        omega
      · simp only [onePass, if_pos hfit, if_neg hzero, List.length_cons]
        have := ih (r - us.length)
        omega
    · simp only [onePass, if_neg hfit, List.length_cons]
      have := ih r
      omega

theorem onePass_progress (k : String) (us : List String) (rest : Groups)
    (r : Int) (hfit : (us.length : Int) ≤ r) :
    (onePass ((k, us) :: rest) r).2.length < ((k, us) :: rest).length := by
  by_cases hzero : r - us.length = 0
  · simp only [onePass, if_pos hfit, if_pos hzero, List.length_cons]
    omega
  · simp only [onePass, if_pos hfit, if_neg hzero, List.length_cons]
    have := onePass_len_le rest (r - us.length)
    omega

theorem packLoopAux_flatten (size : Int) :
    ∀ (fuel : Nat) (gs : Groups), gs.length ≤ fuel →
      (∀ g ∈ gs, (g.2.length : Int) < size) →
      ((packLoopAux size fuel gs).flatten).Perm ((gs.map Prod.snd).flatten) := by
  intro fuel
  induction fuel with
  | zero =>
    intro gs hf _
    have : gs = [] := List.length_eq_zero.mp (Nat.le_zero.mp hf)
    subst this
    simp [packLoopAux]
  | succ fuel ih =>
    intro gs hf hall
    match gs with
    | [] => simp [packLoopAux]
    | (k, us) :: rest =>
      have hfit : (us.length : Int) ≤ size :=
        le_of_lt (hall (k, us) (by simp))
      have hprog := onePass_progress k us rest size hfit
      simp only [List.length_cons] at hf hprog
      have hrec := ih (onePass ((k, us) :: rest) size).2 (by omega)
        (fun g hg => hall g (onePass_mem _ _ g hg))
      simp only [packLoopAux, List.flatten_cons]
      exact (hrec.append_left _).trans (onePass_perm ((k, us) :: rest) size)

theorem packLoopAux_subset_le (size : Int) (hsize : 0 ≤ size) :
    ∀ (fuel : Nat) (gs : Groups), ∀ s ∈ packLoopAux size fuel gs,
      (s.length : Int) ≤ size := by
  intro fuel
  induction fuel with
  | zero => intro gs s hs; simp [packLoopAux] at hs
  | succ fuel ih =>
    intro gs s hs
    match gs with
    | [] => simp [packLoopAux] at hs
    | g :: rest =>
      simp only [packLoopAux, List.mem_cons] at hs
      rcases hs with hs | hs
      · subst hs
        exact onePass_subset_len (g :: rest) size hsize
      · exact ih _ s hs

theorem otherBatches_urls (subsets : List (List String)) (w : Nat) :
    (otherBatches subsets w).map Batch.urls = subsets := by
  simp only [otherBatches, List.map_map]
  have : (Batch.urls ∘ fun p : Nat × List String =>
      Batch.mk ("other-" ++ toString (p.1 + 1)) p.2 w) = Prod.snd := rfl
  rw [this, List.enum_map_snd]

theorem remainderOf_small (groups : Groups) (size : Int) :
    ∀ g ∈ remainderOf groups size, (g.2.length : Int) < size := by
  intro g hg
  have := List.of_mem_filter hg
  simp only [decide_eq_true_eq] at this
  omega

/-- The structure of a successful `pack` run with a positive (possibly
defaulted) split size. -/
theorem pack_eq (groups : Groups) (size sgs0 : Int) (w : Nat)
    (hs : 0 < size) (hg : 0 ≤ sgs0) :
    pack groups size sgs0 w =
      .ok (((oversizedOf groups size).map (fun g =>
          splitGroup g.1 (chunksOf (if sgs0 = 0 then size else sgs0).toNat g.2))).flatten ++
        otherBatches (packLoop (remainderOf groups size) size) w) := by
  have hpos : 1 ≤ (if sgs0 = 0 then size else sgs0) := by
    by_cases h0 : sgs0 = 0
    · rw [if_pos h0]; omega
    · rw [if_neg h0]; omega
  rw [pack, packOversized_ok _ hpos]
  rfl

/-! ## Claim theorems -/

/-- Claim C1, counterexample.  `interleave` does not yield strict
round-robin order: on inputs `[1]`, `[2, 3]`, `[4, 5]` the first sequence
is exhausted at the start of the second round, its removal makes the `for`
loop skip the second sequence for that round, and the element `3` is
emitted after `5` instead of before it.  `roundRobinSpec` is the order the
claim describes. -/
theorem interleave_not_strict_round_robin :
    interleave [[1], [2, 3], [4, 5]] = [1, 2, 4, 5, 3]
    ∧ roundRobinSpec [[1], [2, 3], [4, 5]] = [1, 2, 4, 3, 5]
    ∧ ([1, 2, 4, 5, 3] : List Nat) ≠ [1, 2, 4, 3, 5] :=
  ⟨rfl, rfl, by decide⟩

/-- While every iterator is still live, one pass yields exactly the heads
of the sequences, in order. -/
theorem passAux_heads {α : Type} :
    ∀ (l : List (List α)), (∀ x ∈ l, x ≠ []) →
      (passAux l).1 = l.filterMap List.head? := by
  intro l
  induction l with
  | nil => intro _; simp [passAux]
  | cons hd tl ih =>
    intro h
    match hd with
    | [] => exact absurd rfl (h [] (by simp))
    | x :: xs =>
      simp only [passAux, List.filterMap_cons, List.head?_cons]
      rw [ih (fun y hy => h y (List.mem_cons_of_mem _ hy))]

/-- Claim C1 (amended): `interleave` is deterministic and yields every
element of every input sequence exactly once (its output is a permutation
of the concatenated inputs), and while no sequence is exhausted it takes
one element from each sequence in turn (the output starts with the heads
of the sequences, in order); but when a sequence's exhaustion is detected,
the removal skips the next remaining sequence for the rest of that round,
so the order is not strict round-robin. -/
theorem interleave_round_robin_amended {α : Type} (its : List (List α)) :
    (interleave its).Perm its.flatten
    ∧ ((∀ l ∈ its, l ≠ []) →
        ∃ rest, interleave its = its.filterMap List.head? ++ rest) := by
  refine ⟨interleave_perm its, ?_⟩
  intro hne
  match its with
  | [] => exact ⟨[], by simp [interleave, interleaveAux, mval]⟩
  | hd :: tl =>
    obtain ⟨f, hf⟩ : ∃ f, mval (hd :: tl) = f + 1 := by
      have : 1 ≤ mval (hd :: tl) := by
        simp only [mval, List.length_cons]
        omega
      exact ⟨mval (hd :: tl) - 1, by omega⟩
    refine ⟨interleaveAux f (passAux (hd :: tl)).2, ?_⟩
    rw [interleave, hf]
    simp only [interleaveAux]
    rw [passAux_heads (hd :: tl) hne]

/-- Claim C8: when every input URL has a parseable host, grouping (in
either mode) partitions the input — flattening the groups in
group-then-intra-group order yields the same multiset of URLs as the
input. -/
theorem group_flatten_multiset (urls : List String) (b : GroupBy)
    (h : ∀ u ∈ urls, (hostname u).isSome) :
    ∃ gs, group_urls urls b = .ok gs ∧ ((gs.map Prod.snd).flatten).Perm urls := by
  obtain ⟨gs, hgs⟩ := group_urls_ok urls b h
  exact ⟨gs, hgs, group_urls_flatten_perm urls b gs hgs⟩

/-- Claim C8, witness. -/
theorem group_flatten_multiset_witness :
    ∃ gs, group_urls ["https://a.gov/1", "https://b.gov/2", "https://a.gov/3"]
        .domain = .ok gs
      ∧ ((gs.map Prod.snd).flatten).Perm
          ["https://a.gov/1", "https://b.gov/2", "https://a.gov/3"] :=
  group_flatten_multiset _ .domain (by decide)

/-- Claim C9: an input containing a URL with no parseable host makes
`group_urls` fail (the `assert parsed.hostname` abort) instead of
returning a grouping without that URL. -/
theorem group_invalid_hostname (urls : List String) (b : GroupBy)
    (h : ∃ u ∈ urls, hostname u = none) :
    ∃ e, group_urls urls b = .error e :=
  groupURLsAux_error b urls h []

/-- Claim C9, witness. -/
theorem group_invalid_hostname_witness :
    ∃ e, group_urls ["https://a.gov/1", "not-a-url"] .host = .error e :=
  group_invalid_hostname _ .host (by decide)

/-- Claim C10: the Browsertrix seed order puts every URL whose domain group
is `arcgis` first, in original relative order, followed by the interleaving
of all other domain groups, which is a permutation of the non-arcgis URLs
and contains no arcgis-group URL. -/
theorem browsertrix_arcgis_first (urls : List String)
    (h : ∀ u ∈ urls, (hostname u).isSome) :
    ∃ rest : List String, format_browsertrix_seeds urls =
        .ok ((urls.filter (fun u => urlKey .domain u = some "arcgis")).map seedOf
          ++ rest.map seedOf)
      ∧ rest.Perm (urls.filter (fun u => ¬ urlKey .domain u = some "arcgis"))
      ∧ ∀ u ∈ rest, ¬ urlKey .domain u = some "arcgis" := by
  obtain ⟨gs, hgs⟩ := group_urls_ok urls .domain h
  have hnd := group_urls_keys_nodup urls .domain gs hgs
  have hent := group_urls_entries urls .domain gs hgs
  have hlook := group_urls_lookup urls .domain gs hgs "arcgis"
  refine ⟨interleave ((removeGroup gs "arcgis").map Prod.snd), ?_, ?_, ?_⟩
  · simp only [format_browsertrix_seeds, hgs]
    show Except.ok ((lookupGroup gs "arcgis" ++
        interleave ((removeGroup gs "arcgis").map Prod.snd)).map seedOf) = _
    rw [hlook, List.map_append]
  · have hi := interleave_perm ((removeGroup gs "arcgis").map Prod.snd)
    have hr := removeGroup_flatten_perm gs "arcgis"
    have hu := group_urls_flatten_perm urls .domain gs hgs
    rw [hlook] at hr
    have h2 := hr.trans hu
    have h3 := List.filter_append_perm
      (fun u => decide (urlKey .domain u = some "arcgis")) urls
    have h4 : urls.filter
        (fun u => !decide (urlKey .domain u = some "arcgis")) =
        urls.filter (fun u => ¬ urlKey .domain u = some "arcgis") := by
      refine List.filter_congr (fun x _ => ?_)
      simp [decide_not]
    rw [h4] at h3
    have h5 : ((((removeGroup gs "arcgis").map Prod.snd).flatten) ++
        urls.filter (fun u => urlKey .domain u = some "arcgis")).Perm
        ((urls.filter (fun u => ¬ urlKey .domain u = some "arcgis")) ++
          urls.filter (fun u => urlKey .domain u = some "arcgis")) := by
      refine h2.trans ?_
      refine (h3.symm).trans ?_
      exact List.perm_append_comm
    have h6 := (List.perm_append_right_iff _).mp h5
    exact hi.trans h6
  · intro u hu
    have hmem : u ∈ (((removeGroup gs "arcgis").map Prod.snd).flatten) :=
      (interleave_perm _).mem_iff.mp hu
    rw [List.mem_flatten] at hmem
    obtain ⟨l, hl, hul⟩ := hmem
    rw [List.mem_map] at hl
    obtain ⟨g, hg, hgl⟩ := hl
    obtain ⟨hggs, hgne⟩ := removeGroup_mem gs "arcgis" hnd g hg
    have := (hent g hggs).2 u (hgl ▸ hul)
    rw [this]
    intro hcon
    exact hgne (Option.some.inj hcon)

/-- Claim C10, witness. -/
theorem browsertrix_arcgis_first_witness :
    ∃ rest : List String, format_browsertrix_seeds
        ["https://maps.arcgis.example.com/m", "https://a.gov/1",
          "https://b.gov/2", "https://a.gov/3"] =
        .ok ((["https://maps.arcgis.example.com/m", "https://a.gov/1",
            "https://b.gov/2", "https://a.gov/3"].filter
              (fun u => urlKey .domain u = some "arcgis")).map seedOf
          ++ rest.map seedOf)
      ∧ rest.Perm
          (["https://maps.arcgis.example.com/m", "https://a.gov/1",
            "https://b.gov/2", "https://a.gov/3"].filter
              (fun u => ¬ urlKey .domain u = some "arcgis"))
      ∧ ∀ u ∈ rest, ¬ urlKey .domain u = some "arcgis" :=
  browsertrix_arcgis_first
    ["https://maps.arcgis.example.com/m", "https://a.gov/1",
      "https://b.gov/2", "https://a.gov/3"] (by decide)

/-- Claim C2, counterexample.  The verdict strings the source writes are
`ERR_NAME_NOT_RESOLVED` and `ERR_CONNECTION_RESET`, not the claimed
`name-not-resolved` and `connection-reset`: a host whose probe raises a
DNS-resolution `ConnectionError` is logged with error
`ERR_NAME_NOT_RESOLVED`. -/
theorem precheck_verdict_string_counterexample :
    filter_unreachable_hosts ["https://a.gov/x"]
        (fun _ => .connectionError "NameResolutionError") ["a.gov"] =
      .ok ([], [("a.gov",
        ⟨some "ERR_NAME_NOT_RESOLVED", ["https://a.gov/x"]⟩)])
    ∧ "ERR_NAME_NOT_RESOLVED" ≠ "name-not-resolved" :=
  ⟨rfl, by decide⟩

/-- Claim C2 (amended): for scripted probe outcomes and any completion
order, the precheck returns exactly the URLs (all of each host's URLs, not
just the probed representative) of every host whose outcome is not one of
the three classified network errors; the log has exactly one entry per
input host, whose verdict is `ERR_NAME_NOT_RESOLVED` for a DNS resolution
failure, `timeout` for a connect-phase timeout, `ERR_CONNECTION_RESET` for
a peer reset, and absent for success or any other exception; and a host's
URL list is recorded in its entry exactly when the host is classified
unreachable. -/
theorem precheck_classification_amended (urls : List String)
    (probe : String → ProbeOutcome) (order : List String) (gs : Groups)
    (hgs : group_urls urls .host = .ok gs)
    (hord : order.Perm (gs.map Prod.fst)) :
    ∃ ret : List String, ∃ log : List (String × LogEntry),
      filter_unreachable_hosts urls probe order = .ok (ret, log)
      ∧ ret.Perm (reachableURLs gs probe)
      ∧ (log.map Prod.fst).Perm (gs.map Prod.fst)
      ∧ (∀ g ∈ gs, logEntryFor probe g ∈ log)
      ∧ (∀ e ∈ log, ∃ g ∈ gs, e = logEntryFor probe g)
      ∧ (∀ msg, check_connection_error (.connectionError msg) =
          (if strContains msg "NameResolutionError" then
            some "ERR_NAME_NOT_RESOLVED"
          else if strContains msg "ConnectTimeoutError" then some "timeout"
          else if strContains msg "RemoteDisconnected" then
            some "ERR_CONNECTION_RESET"
          else none))
      ∧ check_connection_error .success = none
      ∧ check_connection_error .otherException = none := by
  have hnd := group_urls_keys_nodup urls .host gs hgs
  have hent := group_urls_entries urls .host gs hgs
  have hne : ∀ p ∈ gs, p.2 ≠ [] := fun p hp => (hent p hp).1
  refine ⟨(precheckFold gs probe order).1, (precheckFold gs probe order).2,
    ?_, ?_, ?_, ?_, ?_, fun msg => rfl, rfl, rfl⟩
  · simp only [filter_unreachable_hosts, hgs]
    rfl
  · exact precheckFold_ret_perm gs probe order hnd hne hord
  · exact precheckFold_log_keys gs probe order hne hord
  · exact precheckFold_log_mem gs probe order hnd hne hord
  · exact precheckFold_log_shape gs probe order hnd hne hord

/-- Claim C2, witness: two hosts, one DNS failure, completion order the
reverse of submission order. -/
theorem precheck_classification_amended_witness :
    ∃ ret : List String, ∃ log : List (String × LogEntry),
      filter_unreachable_hosts
          ["https://a.gov/x", "https://a.gov/y", "https://b.gov/z"]
          (fun u => if u = "https://a.gov/x" then
            .connectionError "had a NameResolutionError inside"
          else .success)
          ["b.gov", "a.gov"] = .ok (ret, log)
      ∧ ret.Perm (reachableURLs
          [("a.gov", ["https://a.gov/x", "https://a.gov/y"]),
            ("b.gov", ["https://b.gov/z"])]
          (fun u => if u = "https://a.gov/x" then
            .connectionError "had a NameResolutionError inside"
          else .success))
      ∧ (log.map Prod.fst).Perm ["a.gov", "b.gov"]
      ∧ (∀ g ∈ [("a.gov", ["https://a.gov/x", "https://a.gov/y"]),
            ("b.gov", ["https://b.gov/z"])],
          logEntryFor (fun u => if u = "https://a.gov/x" then
            .connectionError "had a NameResolutionError inside"
          else .success) g ∈ log)
      ∧ (∀ e ∈ log, ∃ g ∈ [("a.gov", ["https://a.gov/x", "https://a.gov/y"]),
            ("b.gov", ["https://b.gov/z"])],
          e = logEntryFor (fun u => if u = "https://a.gov/x" then
            .connectionError "had a NameResolutionError inside"
          else .success) g)
      ∧ (∀ msg, check_connection_error (.connectionError msg) =
          (if strContains msg "NameResolutionError" then
            some "ERR_NAME_NOT_RESOLVED"
          else if strContains msg "ConnectTimeoutError" then some "timeout"
          else if strContains msg "RemoteDisconnected" then
            some "ERR_CONNECTION_RESET"
          else none))
      ∧ check_connection_error .success = none
      ∧ check_connection_error .otherException = none :=
  precheck_classification_amended
    ["https://a.gov/x", "https://a.gov/y", "https://b.gov/z"]
    (fun u => if u = "https://a.gov/x" then
      .connectionError "had a NameResolutionError inside"
    else .success)
    ["b.gov", "a.gov"]
    [("a.gov", ["https://a.gov/x", "https://a.gov/y"]),
      ("b.gov", ["https://b.gov/z"])]
    rfl (by decide)

/-- Claim C7, counterexample.  Two runs that differ only in probe
completion order return different reachable URL sequences: the returned
list is extended in completion order, so its order follows `as_completed`,
not the input. -/
theorem precheck_completion_order_counterexample :
    filter_unreachable_hosts ["https://a.gov/x", "https://b.gov/y"]
        (fun _ => .success) ["a.gov", "b.gov"] =
      .ok (["https://a.gov/x", "https://b.gov/y"],
        [("a.gov", ⟨none, []⟩), ("b.gov", ⟨none, []⟩)])
    ∧ filter_unreachable_hosts ["https://a.gov/x", "https://b.gov/y"]
        (fun _ => .success) ["b.gov", "a.gov"] =
      .ok (["https://b.gov/y", "https://a.gov/x"],
        [("b.gov", ⟨none, []⟩), ("a.gov", ⟨none, []⟩)])
    ∧ (["https://a.gov/x", "https://b.gov/y"] : List String) ≠
        ["https://b.gov/y", "https://a.gov/x"] :=
  ⟨rfl, rfl, by decide⟩

/-- Claim C7 (amended): two runs of the precheck that differ only in probe
completion order return the same multiset of reachable URLs (the sequence
order, however, follows completion order) and the same log read as a map
from host to record. -/
theorem precheck_order_independent_amended (urls : List String)
    (probe : String → ProbeOutcome) (o1 o2 : List String) (gs : Groups)
    (hgs : group_urls urls .host = .ok gs)
    (h1 : o1.Perm (gs.map Prod.fst)) (h2 : o2.Perm (gs.map Prod.fst)) :
    ∃ r1 l1 r2 l2,
      filter_unreachable_hosts urls probe o1 = .ok (r1, l1)
      ∧ filter_unreachable_hosts urls probe o2 = .ok (r2, l2)
      ∧ r1.Perm r2
      ∧ ∀ h, lookupLog l1 h = lookupLog l2 h := by
  have hnd := group_urls_keys_nodup urls .host gs hgs
  have hne : ∀ p ∈ gs, p.2 ≠ [] :=
    fun p hp => (group_urls_entries urls .host gs hgs p hp).1
  refine ⟨(precheckFold gs probe o1).1, (precheckFold gs probe o1).2,
    (precheckFold gs probe o2).1, (precheckFold gs probe o2).2,
    ?_, ?_, ?_, ?_⟩
  · simp only [filter_unreachable_hosts, hgs]
    rfl
  · simp only [filter_unreachable_hosts, hgs]
    rfl
  · exact (precheckFold_ret_perm gs probe o1 hnd hne h1).trans
      (precheckFold_ret_perm gs probe o2 hnd hne h2).symm
  · intro h
    rw [precheckFold_lookupLog, precheckFold_lookupLog]
    by_cases hmem : h ∈ gs.map Prod.fst
    · rw [if_pos (h1.mem_iff.mpr hmem), if_pos (h2.mem_iff.mpr hmem)]
    · rw [if_neg (fun hc => hmem (h1.mem_iff.mp hc)),
        if_neg (fun hc => hmem (h2.mem_iff.mp hc))]

/-- Claim C7, witness. -/
theorem precheck_order_independent_amended_witness :
    ∃ r1 l1 r2 l2,
      filter_unreachable_hosts ["https://a.gov/x", "https://b.gov/y"]
          (fun _ => ProbeOutcome.success) ["a.gov", "b.gov"] = .ok (r1, l1)
      ∧ filter_unreachable_hosts ["https://a.gov/x", "https://b.gov/y"]
          (fun _ => ProbeOutcome.success) ["b.gov", "a.gov"] = .ok (r2, l2)
      ∧ r1.Perm r2
      ∧ ∀ h, lookupLog l1 h = lookupLog l2 h :=
  precheck_order_independent_amended
    ["https://a.gov/x", "https://b.gov/y"] (fun _ => ProbeOutcome.success)
    ["a.gov", "b.gov"] ["b.gov", "a.gov"]
    [("a.gov", ["https://a.gov/x"]), ("b.gov", ["https://b.gov/y"])]
    rfl (by decide) (by decide)

theorem splitGroups_urls_flatten (n : Nat) (hn : 1 ≤ n) (gs : Groups) :
    ((((gs.map (fun g => splitGroup g.1 (chunksOf n g.2))).flatten).map
      Batch.urls).flatten) = ((gs.map Prod.snd).flatten) := by
  induction gs with
  | nil => simp
  | cons g rest ih =>
    simp only [List.map_cons, List.flatten_cons, List.map_append,
      List.flatten_append, splitGroup_urls, chunksOf_flatten n g.2 hn, ih]

theorem oversized_remainder_perm (groups : Groups) (size : Int) :
    (((oversizedOf groups size).map Prod.snd).flatten ++
      ((remainderOf groups size).map Prod.snd).flatten).Perm
      ((groups.map Prod.snd).flatten) := by
  induction groups with
  | nil => simp [oversizedOf, remainderOf]
  | cons g rest ih =>
    by_cases hle : size ≤ (g.2.length : Int)
    · have ho : oversizedOf (g :: rest) size = g :: oversizedOf rest size := by
        simp [oversizedOf, List.filter_cons, hle]
      have hr : remainderOf (g :: rest) size = remainderOf rest size := by
        simp [remainderOf, List.filter_cons, hle]
      rw [ho, hr, List.map_cons, List.flatten_cons, List.append_assoc]
      exact (ih.append_left g.2)
    · have ho : oversizedOf (g :: rest) size = oversizedOf rest size := by
        simp [oversizedOf, List.filter_cons, hle]
      have hr : remainderOf (g :: rest) size = g :: remainderOf rest size := by
        simp [remainderOf, List.filter_cons, hle]
      rw [ho, hr, List.map_cons, List.flatten_cons]
      exact (perm_append_swap _ _ _).trans (ih.append_left g.2)

/-- Claim C3: with positive `target_size` and `oversized_split_size`,
`pack` is total — the URLs of all output batches form the same multiset as
the URLs of all input groups (nothing dropped, nothing duplicated). -/
theorem pack_total (groups : Groups) (size sgs0 : Int) (w : Nat)
    (hs : 0 < size) (hg : 0 < sgs0) :
    ∃ bs : List Batch, pack groups size sgs0 w = .ok bs
      ∧ ((bs.map Batch.urls).flatten).Perm ((groups.map Prod.snd).flatten) := by
  have heq := pack_eq groups size sgs0 w hs (le_of_lt hg)
  rw [if_neg (by omega : ¬ sgs0 = 0)] at heq
  refine ⟨_, heq, ?_⟩
  rw [List.map_append, List.flatten_append,
    splitGroups_urls_flatten sgs0.toNat (by omega) (oversizedOf groups size),
    otherBatches_urls]
  have hml := packLoopAux_flatten size (remainderOf groups size).length
    (remainderOf groups size) le_rfl (remainderOf_small groups size)
  refine ((hml.append_left _).trans ?_)
  exact oversized_remainder_perm groups size

/-- Claim C3, witness. -/
theorem pack_total_witness :
    ∃ bs : List Batch,
      pack [("a.gov", ["u", "v"]), ("b.gov", ["w"])] 2 2 3 = .ok bs
      ∧ ((bs.map Batch.urls).flatten).Perm
          ((([("a.gov", ["u", "v"]), ("b.gov", ["w"])] : Groups).map
            Prod.snd).flatten) :=
  pack_total [("a.gov", ["u", "v"]), ("b.gov", ["w"])] 2 2 3
    (by decide) (by decide)

/-- Claim C4: with positive sizes, every batch of the bin-packing phase
(the `otherBatches` of `packLoop` over the remaining groups) holds at most
`target_size` URLs, and every chunk batch of the oversized-group phase
(the `splitGroup` batches of the oversized groups) holds at most
`oversized_split_size` URLs; `pack`'s output is exactly the concatenation
of those two phases. -/
theorem pack_size_bounds (groups : Groups) (size sgs0 : Int) (w : Nat)
    (hs : 0 < size) (hg : 0 < sgs0) :
    pack groups size sgs0 w =
      .ok ((((oversizedOf groups size).map (fun g => splitGroup g.1
          (chunksOf sgs0.toNat g.2))).flatten)
        ++ otherBatches (packLoop (remainderOf groups size) size) w)
    ∧ (∀ b ∈ (((oversizedOf groups size).map (fun g => splitGroup g.1
          (chunksOf sgs0.toNat g.2))).flatten),
        (b.urls.length : Int) ≤ sgs0)
    ∧ (∀ b ∈ otherBatches (packLoop (remainderOf groups size) size) w,
        (b.urls.length : Int) ≤ size) := by
  have heq := pack_eq groups size sgs0 w hs (le_of_lt hg)
  rw [if_neg (by omega : ¬ sgs0 = 0)] at heq
  refine ⟨heq, ?_, ?_⟩
  · intro b hb
    rw [List.mem_flatten] at hb
    obtain ⟨l, hl, hbl⟩ := hb
    rw [List.mem_map] at hl
    obtain ⟨g, _, hgl⟩ := hl
    have : b.urls ∈ chunksOf sgs0.toNat g.2 := by
      rw [← splitGroup_urls g.1 (chunksOf sgs0.toNat g.2), List.mem_map]
      exact ⟨b, hgl ▸ hbl, rfl⟩
    have hlen := chunksOf_length_le sgs0.toNat g.2 b.urls this
    omega
  · intro b hb
    have : b.urls ∈ packLoop (remainderOf groups size) size := by
      rw [← otherBatches_urls (packLoop (remainderOf groups size) size) w,
        List.mem_map]
      exact ⟨b, hb, rfl⟩
    exact packLoopAux_subset_le size (le_of_lt hs) _ _ b.urls this

/-- Claim C4, witness, with distinct bounds (`target_size = 2`,
`oversized_split_size = 5`): the oversized group is chunked under the
5-URL bound while the bin-packed batch obeys the 2-URL bound. -/
theorem pack_size_bounds_witness :
    pack [("a.gov", ["u", "v", "w"]), ("b.gov", ["x"])] 2 5 3 =
      .ok ((((oversizedOf [("a.gov", ["u", "v", "w"]), ("b.gov", ["x"])]
          2).map (fun g => splitGroup g.1
          (chunksOf (5 : Int).toNat g.2))).flatten)
        ++ otherBatches (packLoop (remainderOf
            [("a.gov", ["u", "v", "w"]), ("b.gov", ["x"])] 2) 2) 3)
    ∧ (∀ b ∈ (((oversizedOf [("a.gov", ["u", "v", "w"]), ("b.gov", ["x"])]
          2).map (fun g => splitGroup g.1
          (chunksOf (5 : Int).toNat g.2))).flatten),
        (b.urls.length : Int) ≤ 5)
    ∧ (∀ b ∈ otherBatches (packLoop (remainderOf
          [("a.gov", ["u", "v", "w"]), ("b.gov", ["x"])] 2) 2) 3,
        (b.urls.length : Int) ≤ 2) :=
  pack_size_bounds [("a.gov", ["u", "v", "w"]), ("b.gov", ["x"])] 2 5 3
    (by decide) (by decide)

/-- Claim C5: exactly the groups with at least `target_size` URLs (equality
included) leave the working set; each is split, in group order, into
consecutive chunks of `oversized_split_size` URLs (`oversized_split_size`
defaulting to `target_size` when unset, i.e. zero), every chunk except
possibly the last having exactly that size, chunks nonempty, group URL
order preserved (the chunks flatten back to the group), and each chunk
becomes a batch named from the group key with a 1-based index (the
structure of `splitGroup`). -/
theorem pack_oversized_phase (groups : Groups) (size sgs0 : Int) (w : Nat)
    (hs : 0 < size) (hg : 0 ≤ sgs0) :
    pack groups size sgs0 w =
      .ok ((((oversizedOf groups size).map (fun g => splitGroup g.1
          (chunksOf (if sgs0 = 0 then size else sgs0).toNat g.2))).flatten)
        ++ otherBatches (packLoop (remainderOf groups size) size) w)
    ∧ oversizedOf groups size =
        groups.filter (fun g => size ≤ (g.2.length : Int))
    ∧ remainderOf groups size =
        groups.filter (fun g => ¬ size ≤ (g.2.length : Int))
    ∧ ∀ g ∈ oversizedOf groups size,
        (chunksOf (if sgs0 = 0 then size else sgs0).toNat g.2).flatten = g.2
        ∧ (∀ c ∈ (chunksOf (if sgs0 = 0 then size else sgs0).toNat
            g.2).dropLast, c.length = (if sgs0 = 0 then size else sgs0).toNat)
        ∧ (∀ c ∈ chunksOf (if sgs0 = 0 then size else sgs0).toNat g.2,
            c.length ≤ (if sgs0 = 0 then size else sgs0).toNat ∧ c ≠ []) := by
  have hpos : 1 ≤ (if sgs0 = 0 then size else sgs0).toNat := by
    by_cases h0 : sgs0 = 0
    · rw [if_pos h0]; omega
    · rw [if_neg h0]; omega
  refine ⟨pack_eq groups size sgs0 w hs hg, rfl, rfl, ?_⟩
  intro g _
  exact ⟨chunksOf_flatten _ g.2 hpos,
    chunksOf_dropLast _ g.2 hpos,
    fun c hc => ⟨chunksOf_length_le _ g.2 c hc,
      chunksOf_ne_nil _ g.2 hpos c hc⟩⟩

/-- Claim C5, witness (split size unset, defaulting to `target_size`). -/
theorem pack_oversized_phase_witness :
    pack [("a.gov", ["u", "v", "w"]), ("b.gov", ["x"])] 2 0 3 =
      .ok ((((oversizedOf [("a.gov", ["u", "v", "w"]), ("b.gov", ["x"])]
          2).map (fun g => splitGroup g.1
          (chunksOf (if (0 : Int) = 0 then (2 : Int) else 0).toNat g.2))).flatten)
        ++ otherBatches (packLoop (remainderOf
            [("a.gov", ["u", "v", "w"]), ("b.gov", ["x"])] 2) 2) 3)
    ∧ oversizedOf [("a.gov", ["u", "v", "w"]), ("b.gov", ["x"])] 2 =
        ([("a.gov", ["u", "v", "w"]), ("b.gov", ["x"])] : Groups).filter
          (fun g => (2 : Int) ≤ (g.2.length : Int))
    ∧ remainderOf [("a.gov", ["u", "v", "w"]), ("b.gov", ["x"])] 2 =
        ([("a.gov", ["u", "v", "w"]), ("b.gov", ["x"])] : Groups).filter
          (fun g => ¬ (2 : Int) ≤ (g.2.length : Int))
    ∧ ∀ g ∈ oversizedOf [("a.gov", ["u", "v", "w"]), ("b.gov", ["x"])] 2,
        (chunksOf (if (0 : Int) = 0 then (2 : Int) else 0).toNat
          g.2).flatten = g.2
        ∧ (∀ c ∈ (chunksOf (if (0 : Int) = 0 then (2 : Int) else 0).toNat
            g.2).dropLast,
            c.length = (if (0 : Int) = 0 then (2 : Int) else 0).toNat)
        ∧ (∀ c ∈ chunksOf (if (0 : Int) = 0 then (2 : Int) else 0).toNat g.2,
            c.length ≤ (if (0 : Int) = 0 then (2 : Int) else 0).toNat
            ∧ c ≠ []) :=
  pack_oversized_phase [("a.gov", ["u", "v", "w"]), ("b.gov", ["x"])] 2 0 3
    (by decide) (by decide)

/-- Claim C6, counterexample.  `generate_multi_seeds` has no guard on
`single_group_size`: the value `0` is the "unset" marker
(`single_group_size or size`), so a call with a zero split size proceeds
and produces batches instead of failing. -/
theorem pack_zero_split_not_rejected :
    pack [("a", ["u"])] 1 0 2 = .ok [⟨"a-1", ["u"], 1⟩]
    ∧ ∀ e, pack [("a", ["u"])] 1 0 2 ≠ .error e := by
  refine ⟨rfl, ?_⟩
  intro e h
  rw [show pack [("a", ["u"])] 1 0 2 = .ok [⟨"a-1", ["u"], 1⟩] from rfl] at h
  exact Except.noConfusion h

/-- Claim C6 (amended): a zero `oversized_split_size` is the unset marker
and silently defaults to `target_size` (the run succeeds); a negative
value is rejected only when at least one oversized group exists — then
`itertools.batched` raises `ValueError` before any batch is produced — and
a run with no oversized group proceeds normally even with a negative
value. -/
theorem pack_nonpositive_split_amended (groups : Groups) (size sgs0 : Int)
    (w : Nat) (hs : 0 < size) (_hng : sgs0 ≤ 0) :
    (sgs0 = 0 → ∃ bs, pack groups size sgs0 w = .ok bs)
    ∧ (sgs0 < 0 → oversizedOf groups size = [] →
        ∃ bs, pack groups size sgs0 w = .ok bs)
    ∧ (sgs0 < 0 → oversizedOf groups size ≠ [] →
        pack groups size sgs0 w = .error "n must be at least one") := by
  refine ⟨?_, ?_, ?_⟩
  · intro h0
    exact ⟨_, pack_eq groups size sgs0 w hs (le_of_eq h0.symm)⟩
  · intro _ hov
    refine ⟨otherBatches (packLoop (remainderOf groups size) size) w, ?_⟩
    simp only [pack, hov]
    rfl
  · intro hneg hov
    have herr := packOversized_error (if sgs0 = 0 then size else sgs0)
      (by rw [if_neg (by omega : ¬ sgs0 = 0)]; omega)
      (oversizedOf groups size) hov
    simp only [pack, herr]
    rfl

/-- Claim C6, witness (negative split size, one oversized group). -/
theorem pack_nonpositive_split_amended_witness :
    ((-3 : Int) = 0 → ∃ bs, pack [("a", ["u"])] 1 (-3) 2 = .ok bs)
    ∧ ((-3 : Int) < 0 → oversizedOf [("a", ["u"])] 1 = [] →
        ∃ bs, pack [("a", ["u"])] 1 (-3) 2 = .ok bs)
    ∧ ((-3 : Int) < 0 → oversizedOf [("a", ["u"])] 1 ≠ [] →
        pack [("a", ["u"])] 1 (-3) 2 = .error "n must be at least one") :=
  pack_nonpositive_split_amended [("a", ["u"])] 1 (-3) 2
    (by decide) (by decide)

end Crawler
